import Mathlib

/-!
Verification development for the grape-length time-series analytics core
(`Main_code.py`).  The analytics functions are shallowly embedded over ℚ:

* a pandas/numpy float value is modelled as `Option ℚ`, with `none`
  standing for `NaN`;
* calendar dates are modelled as `ℤ` day numbers (dates are only ever
  compared and this is order-faithful);
* `np.std` comparisons `|v - mean| / std > z` are embedded as
  `(v - mean)^2 > z^2 * var`, which is equivalent for a threshold
  `z ≥ 0` whenever `std > 0` (i.e. `var > 0`), and squaring avoids an
  irrational square root in the embedding.

Each embedded function keeps the layout of the Python source it is
translated from, noted next to the definition.
-/

namespace GrapeLength

/-! ## Basic statistics helpers (np.mean, np.std) -/

/-- `np.mean` of a list of rationals (0 on the empty list, which is
never used on an empty list below). -/
def listMean (l : List ℚ) : ℚ := l.sum / l.length

/-- Population variance, i.e. the square of `np.std(·)` (default
`ddof=0`).  `np.std l > 0` iff `popVar l > 0`. -/
def popVar (l : List ℚ) : ℚ :=
  (l.map (fun x => (x - listMean l) ^ 2)).sum / l.length

/-! ## Smoothing Filter — `smooth_diameter` (Main_code.py, Part 4)

The source iterates `i` over the value array, takes the window
`values[max(0, i-half_w) : min(len, i+half_w+1)]` **of the array it is
mutating**, drops `NaN`s, and nulls `values[i]` when the local z-score
exceeds the threshold.  Afterwards it linearly interpolates
(`limit_direction='both'`) and applies a centered rolling mean with
`min_periods=1`. -/

/-- The clipped local window `values[left:right]` around index `i`
(`left = max(0, i - half_w)`, `right = min(len, i + half_w + 1)`;
ℕ-subtraction realizes the `max(0, ·)` clip). -/
def localWindow (half_w : ℕ) (vals : List (Option ℚ)) (i : ℕ) : List (Option ℚ) :=
  let left := i - half_w
  let right := min vals.length (i + half_w + 1)
  (vals.drop left).take (right - left)

/-- Whether the source's loop body nulls index `i`, judged on the array
`cur`: at least two non-`NaN` values in the window, positive std, a
non-`NaN` value at `i`, and squared z-score above `z^2`. -/
def outlierMarked (z : ℚ) (half_w : ℕ) (cur : List (Option ℚ)) (i : ℕ) : Bool :=
  let valid := (localWindow half_w cur i).filterMap id
  if valid.length < 2 then false
  else
    match cur.getD i none with
    | none => false
    | some v =>
      decide (0 < popVar valid ∧ (v - listMean valid) ^ 2 > z ^ 2 * popVar valid)

/-- One iteration of the outlier loop: null index `i` of the working
array when it is marked. -/
def outlierStep (z : ℚ) (half_w : ℕ) (cur : List (Option ℚ)) (i : ℕ) : List (Option ℚ) :=
  if outlierMarked z half_w cur i then cur.set i none else cur

/-- The outlier-marking loop of `smooth_diameter`: a left-to-right pass
that judges every index on the **current, partially nulled** array,
exactly as the Python loop mutates `values` in place. -/
def outlierPass (z : ℚ) (half_w : ℕ) (vals : List (Option ℚ)) : List (Option ℚ) :=
  (List.range vals.length).foldl (outlierStep z half_w) vals

/-- Modelled from the spec: the same marking pass, but with every
decision taken on the **original, untouched** input, as §4.3 of the
spec describes ("window statistics are computed once per index from the
untouched input").  Kept separate so the two policies can be compared. -/
def outlierPassSpec (z : ℚ) (half_w : ℕ) (vals : List (Option ℚ)) : List (Option ℚ) :=
  (List.range vals.length).map
    (fun i => if outlierMarked z half_w vals i then none else vals.getD i none)

/-- The `(index, value)` pairs of the non-`NaN` entries of a series. -/
def validEntries (l : List (Option ℚ)) : List (ℕ × ℚ) :=
  ((List.range l.length).zip l).filterMap (fun p => p.2.map (fun v => (p.1, v)))

/-- The last non-`NaN` entry at or before index `i`. -/
def prevValid (l : List (Option ℚ)) (i : ℕ) : Option (ℕ × ℚ) :=
  ((validEntries l).filter (fun p => decide (p.1 ≤ i))).getLast?

/-- The first non-`NaN` entry at or after index `i`. -/
def nextValid (l : List (Option ℚ)) (i : ℕ) : Option (ℕ × ℚ) :=
  ((validEntries l).filter (fun p => decide (i ≤ p.1))).head?

/-- `Series.interpolate(method='linear', limit_direction='both')`:
interior `NaN`s are linearly interpolated between the surrounding valid
entries, boundary `NaN`s are filled with the nearest valid value, and an
all-`NaN` series stays all-`NaN`. -/
def interpolateLinear (l : List (Option ℚ)) : List (Option ℚ) :=
  (List.range l.length).map (fun i =>
    match l.getD i none with
    | some v => some v
    | none =>
      match prevValid l i, nextValid l i with
      | some pv, some nv =>
          some (pv.2 + (nv.2 - pv.2) * (((i : ℚ) - (pv.1 : ℚ)) / ((nv.1 : ℚ) - (pv.1 : ℚ))))
      | some pv, none => some pv.2
      | none, some nv => some nv.2
      | none, none => none)

/-- `Series.rolling(w, center=True, min_periods=1).mean()`: at label
`i` the window covers indices `[i + w/2 + 1 - w, i + w/2]` clipped to
the sequence, `NaN`s are skipped, and the result is `NaN` only when no
valid value is in the window. -/
def rollingMeanCentered (w : ℕ) (l : List (Option ℚ)) : List (Option ℚ) :=
  (List.range l.length).map (fun i =>
    let lo := i + w / 2 + 1 - w
    let hi := min l.length (i + w / 2 + 1)
    let win := ((l.drop lo).take (hi - lo)).filterMap id
    if win.length = 0 then none else some (win.sum / (win.length : ℚ)))

/-- `smooth_diameter(df, window, z_threshold)`: outlier pass, then
linear interpolation, then the centered rolling mean.  The source's
`half_w = window // 2`. -/
def smoothDiameter (window : ℕ) (z : ℚ) (vals : List (Option ℚ)) : List (Option ℚ) :=
  rollingMeanCentered window (interpolateLinear (outlierPass z (window / 2) vals))

/-! ## Lemmas about the outlier pass -/

lemma popVar_nonneg (l : List ℚ) : 0 ≤ popVar l := by
  unfold popVar
  apply div_nonneg _ (by positivity)
  apply List.sum_nonneg
  intro x hx
  obtain ⟨y, _, rfl⟩ := List.mem_map.mp hx
  positivity

lemma sq_dev_le_len_mul_popVar (l : List ℚ) (v : ℚ) (hv : v ∈ l) :
    (v - listMean l) ^ 2 ≤ (l.length : ℚ) * popVar l := by
  have hlen : (0 : ℚ) < l.length := by
    have := List.length_pos_of_mem hv
    exact_mod_cast this
  have hsum : (v - listMean l) ^ 2 ≤ (l.map (fun x => (x - listMean l) ^ 2)).sum := by
    apply List.single_le_sum (fun x hx => ?_) _ (List.mem_map_of_mem _ hv)
    obtain ⟨y, _, rfl⟩ := List.mem_map.mp hx
    positivity
  have : (l.length : ℚ) * popVar l = (l.map (fun x => (x - listMean l) ^ 2)).sum := by
    unfold popVar
    field_simp
  linarith

/-- In a window of at most three values, no member has squared z-score
above `(5/2)^2 = 6.25`, because it is at most the window size. -/
lemma sq_dev_le_of_short (l : List ℚ) (v : ℚ) (hv : v ∈ l) (h3 : l.length ≤ 3) :
    (v - listMean l) ^ 2 ≤ (5 / 2 : ℚ) ^ 2 * popVar l := by
  have h1 := sq_dev_le_len_mul_popVar l v hv
  have h2 := popVar_nonneg l
  have hc : (l.length : ℚ) ≤ 3 := by exact_mod_cast h3
  nlinarith

lemma localWindow_length_le (vals : List (Option ℚ)) (i : ℕ) :
    (localWindow 1 vals i).length ≤ 3 := by
  unfold localWindow
  simp only [List.length_take, List.length_drop]
  omega

lemma getD_eq_some (l : List (Option ℚ)) (i : ℕ) (v : ℚ)
    (h : l.getD i none = some v) : i < l.length ∧ l[i]? = some (some v) := by
  rcases Nat.lt_or_ge i l.length with hi | hi
  · refine ⟨hi, ?_⟩
    rw [List.getD_eq_getElem?_getD, List.getElem?_eq_getElem hi] at h
    rw [List.getElem?_eq_getElem hi]
    simpa using h
  · rw [List.getD_eq_default _ _ hi] at h
    exact absurd h (by simp)

lemma mem_localWindow (vals : List (Option ℚ)) (i : ℕ) (hi : i < vals.length) :
    vals.getD i none ∈ localWindow 1 vals i := by
  unfold localWindow
  have hkey : (localWindow 1 vals i)[i - (i - 1)]? = some (vals.getD i none) := by
    unfold localWindow
    rw [List.getElem?_take, List.getElem?_drop]
    have h1 : i - 1 + (i - (i - 1)) = i := by omega
    rw [if_pos (by omega), h1, List.getElem?_eq_getElem hi]
    rw [List.getD_eq_getElem?_getD, List.getElem?_eq_getElem hi]
    simp
  unfold localWindow at hkey
  exact List.getElem?_mem hkey

/-- With the default `window=3`, `z_threshold=2.5` parameters the loop
body can never fire: the window around `i` holds at most three valid
values including `values[i]` itself. -/
lemma outlierMarked_default_false (vals : List (Option ℚ)) (i : ℕ) :
    outlierMarked (5 / 2) 1 vals i = false := by
  unfold outlierMarked
  by_cases hlen : ((localWindow 1 vals i).filterMap id).length < 2
  · simp [hlen]
  · simp only [hlen, if_false]
    rcases hv : vals.getD i none with _ | v
    · rfl
    · simp only [decide_eq_false_iff_not, not_and, not_lt]
      intro hvar
      obtain ⟨hi, _⟩ := getD_eq_some vals i v hv
      have hmem : v ∈ (localWindow 1 vals i).filterMap id := by
        apply List.mem_filterMap.mpr
        refine ⟨some v, ?_, rfl⟩
        have := mem_localWindow vals i hi
        rwa [hv] at this
      have hshort : ((localWindow 1 vals i).filterMap id).length ≤ 3 :=
        le_trans (List.length_filterMap_le _ _) (localWindow_length_le vals i)
      exact sq_dev_le_of_short _ v hmem hshort

lemma foldl_fixed {α β : Type} (f : α → β → α) (a : α) (l : List β)
    (h : ∀ b ∈ l, f a b = a) : l.foldl f a = a := by
  induction l with
  | nil => rfl
  | cons x xs ih =>
    rw [List.foldl_cons, h x (by simp)]
    exact ih (fun b hb => h b (by simp [hb]))

lemma outlierPass_default (vals : List (Option ℚ)) :
    outlierPass (5 / 2) 1 vals = vals := by
  apply foldl_fixed
  intro i _
  simp [outlierStep, outlierMarked_default_false]

lemma map_range_getD (l : List (Option ℚ)) :
    (List.range l.length).map (fun i => l.getD i none) = l := by
  apply List.ext_getElem?
  intro i
  rcases Nat.lt_or_ge i l.length with hi | hi
  · rw [List.getElem?_map, List.getElem?_range hi, List.getElem?_eq_getElem hi]
    simp [List.getD_eq_getElem?_getD, List.getElem?_eq_getElem hi]
  · rw [List.getElem?_map, List.getElem?_eq_none (by simpa using hi),
      List.getElem?_eq_none (by simpa using hi)]
    rfl

lemma outlierPassSpec_default (vals : List (Option ℚ)) :
    outlierPassSpec (5 / 2) 1 vals = vals := by
  unfold outlierPassSpec
  simp only [outlierMarked_default_false, if_false, Bool.false_eq_true]
  exact map_range_getD vals

lemma interpolateLinear_map_some (l : List ℚ) :
    interpolateLinear (l.map some) = l.map some := by
  unfold interpolateLinear
  apply List.ext_getElem?
  intro i
  rcases Nat.lt_or_ge i l.length with hi | hi
  · rw [List.getElem?_map, List.length_map, List.getElem?_range hi, List.getElem?_map,
      List.getElem?_eq_getElem hi]
    simp [List.getD_eq_getElem?_getD, List.getElem?_map, List.getElem?_eq_getElem hi]
  · rw [List.getElem?_map, List.length_map, List.getElem?_eq_none (by simpa using hi),
      List.getElem?_eq_none (by simpa using hi)]
    rfl

/-! ## Evaluation helpers for concrete smoothing runs -/

set_option maxHeartbeats 1000000 in
lemma outlierPass_mutating_eval :
    outlierPass (6 / 5) 1 [some 0, some 1, some 0, some 1] =
      [some 0, none, some 0, some 1] := by
  norm_num [outlierPass, outlierStep, outlierMarked, localWindow, listMean, popVar,
    List.range_succ, List.foldl_append, List.set, List.filterMap_cons, id_eq]

set_option maxHeartbeats 1000000 in
lemma outlierPassSpec_original_eval :
    outlierPassSpec (6 / 5) 1 [some 0, some 1, some 0, some 1] =
      [some 0, none, none, some 1] := by
  norm_num [outlierPassSpec, outlierMarked, localWindow, listMean, popVar,
    List.range_succ, List.filterMap_cons, id_eq]

lemma rollingMean_spike_at3 :
    (rollingMeanCentered 3 (([1, 1, 1, 5, 1, 1, 1, 1, 1, 1] : List ℚ).map some))[3]? =
      some (some (7 / 3)) := by
  norm_num [rollingMeanCentered, List.getElem?_range, List.filterMap_cons, id_eq]
  intro h
  simp at h

/-! ## Claims C1, C2, C3 -/

/-- C1 (counterexample): the window statistics of `smooth_diameter` are
**not** computed from the original, untouched input.  On the series
`[0, 1, 0, 1]` with `window=3` and `z_threshold=1.2` (embedded squared:
`z = 6/5`), index 1 is nulled first, and the decision at index 2 then
sees the mutated window `[NaN, 0, 1]` and keeps the value, whereas
statistics from the untouched input `[1, 0, 1]` would null index 2 as
well.  So a value nulled earlier in the same pass does affect a later
decision. -/
theorem smooth_stats_not_from_original_cex :
    outlierPass (6 / 5) 1 [some 0, some 1, some 0, some 1] ≠
      outlierPassSpec (6 / 5) 1 [some 0, some 1, some 0, some 1] := by
  rw [outlierPass_mutating_eval, outlierPassSpec_original_eval]
  simp

/-- C1 (amended): the marking loop judges each index on the working
array in which values nulled at earlier indices of the same pass are
already missing.  At the parameters the pipeline actually runs
(`window=3`, `z_threshold=2.5`) no value is ever nulled, so there the
mutating pass and the pass using original-input statistics coincide. -/
theorem smooth_stats_default_mutating_eq_original (vals : List (Option ℚ)) :
    outlierPass (5 / 2) 1 vals = outlierPassSpec (5 / 2) 1 vals := by
  rw [outlierPass_default, outlierPassSpec_default]

/-- C2: with the default parameters `window=3`, `z_threshold=2.5`, the
outlier-marking loop of `smooth_diameter` never marks any position of a
series without missing values — a member of a window of at most three
values has squared z-score at most 3 < 2.5² — and the output therefore
equals the centered width-3 rolling mean (`min_periods=1`) of the
unmodified input. -/
theorem smooth_default_no_marks_eq_rolling_mean (l : List ℚ) :
    outlierPass (5 / 2) 1 (l.map some) = l.map some ∧
    smoothDiameter 3 (5 / 2) (l.map some) = rollingMeanCentered 3 (l.map some) := by
  refine ⟨outlierPass_default _, ?_⟩
  show rollingMeanCentered 3
      (interpolateLinear (outlierPass (5 / 2) 1 (l.map some))) = _
  rw [outlierPass_default, interpolateLinear_map_some]

/-- C3 (counterexample): for the series `[1,1,1,5,1,1,1,1,1,1]` with
`z_threshold=2.5`, `window=3` (dates play no role in
`smooth_diameter`), the smoothed value at position 3 is `7/3 ≈ 2.33`:
the spike is never rejected (its z-score is `√2 < 2.5`), so position 3
receives the plain rolling mean `(1+5+1)/3`, which exceeds any reading
of "approximately 1.3". -/
theorem smooth_spike_exceeds_cex :
    (smoothDiameter 3 (5 / 2) (([1, 1, 1, 5, 1, 1, 1, 1, 1, 1] : List ℚ).map some))[3]? =
      some (some (7 / 3)) ∧ ¬ ((7 / 3 : ℚ) ≤ 13 / 10) := by
  constructor
  · show (rollingMeanCentered 3
        (interpolateLinear (outlierPass (5 / 2) 1 (([1, 1, 1, 5, 1, 1, 1, 1, 1, 1] : List ℚ).map some))))[3]? = _
    rw [outlierPass_default, interpolateLinear_map_some]
    exact rollingMean_spike_at3
  · norm_num

/-- C3 (amended): the same input produces a smoothed series whose value
at position 3 equals `7/3 ≈ 2.33` — the spike is averaged into the
rolling mean, not rejected, because no member of a three-value window
can have z-score above `√2 < 2.5`. -/
theorem smooth_spike_position3_value :
    (smoothDiameter 3 (5 / 2) (([1, 1, 1, 5, 1, 1, 1, 1, 1, 1] : List ℚ).map some))[3]? =
      some (some (7 / 3)) := by
  show (rollingMeanCentered 3
      (interpolateLinear (outlierPass (5 / 2) 1 (([1, 1, 1, 5, 1, 1, 1, 1, 1, 1] : List ℚ).map some))))[3]? = _
  rw [outlierPass_default, interpolateLinear_map_some]
  exact rollingMean_spike_at3

/-! ## Constrained Stabilizer — `force_smooth_diameter` (Main_code.py, Part 4)

Dates are modelled as integer day numbers (`pd.to_datetime(...).dt.date`
values are only ever compared against the cutoff, which is
order-faithful).  The series is taken with its positional 0-based index,
under which the source's integer indexing `forced_vals[i]`/`[i-1]`
addresses the stated positions.  The default arguments are
`cutoff_str="2024-10-10"` and `max_drop=0.05` (= `1/20`). -/

/-- Pre-cutoff phase: `forced_vals[mask_pre] =
np.maximum.accumulate(forced_vals[mask_pre])`.  The accumulator `carry`
is the running maximum over the pre-cutoff positions seen so far
(`none` before the first one); positions with date `≥ cutoff` pass
through unchanged. -/
def runningMaxPre (cutoff : ℤ) : Option ℚ → List ℤ → List ℚ → List ℚ
  | _, [], _ => []
  | _, _ :: _, [] => []
  | carry, d :: ds, v :: vs =>
    if d < cutoff then
      match carry with
      | none => v :: runningMaxPre cutoff (some v) ds vs
      | some c => max c v :: runningMaxPre cutoff (some (max c v)) ds vs
    else v :: runningMaxPre cutoff carry ds vs

/-- Post-cutoff clamping walk: for every index `i ≥ 1` whose date is on
or after the cutoff, if `value[i] < value[i-1] - max_drop` then
`value[i] := value[i-1] - max_drop`, where `value[i-1]` is the already
updated predecessor (`prev`); index 0 is skipped (`if i == 0:
continue`). -/
def clampWalk (cutoff : ℤ) (maxDrop : ℚ) : Option ℚ → List ℤ → List ℚ → List ℚ
  | _, [], _ => []
  | _, _ :: _, [] => []
  | prev, d :: ds, v :: vs =>
    match prev with
    | none => v :: clampWalk cutoff maxDrop (some v) ds vs
    | some p =>
      if cutoff ≤ d ∧ v < p - maxDrop then
        (p - maxDrop) :: clampWalk cutoff maxDrop (some (p - maxDrop)) ds vs
      else v :: clampWalk cutoff maxDrop (some v) ds vs

/-- The subsequence of values at positions with date on or after the
cutoff (`forced_vals[mask_post]`), in positional order. -/
def postVals (cutoff : ℤ) : List ℤ → List ℚ → List ℚ
  | d :: ds, v :: vs =>
    if cutoff ≤ d then v :: postVals cutoff ds vs else postVals cutoff ds vs
  | _, _ => []

def mean2 (a b : ℚ) : ℚ := (a + b) / 2

def mean3 (a b c : ℚ) : ℚ := (a + b + c) / 3

/-- Tail of `rolling(3, min_periods=1, center=True).mean()` on a
`NaN`-free series: `x, y` are the two values preceding the rest. -/
def roll3Aux (x y : ℚ) : List ℚ → List ℚ
  | [] => [mean2 x y]
  | z :: rest => mean3 x y z :: roll3Aux y z rest

/-- `Series.rolling(3, min_periods=1, center=True).mean()` on a
`NaN`-free series, as the source applies it to the post-cutoff
subsequence: each label averages its clipped centered 3-window. -/
def roll3 : List ℚ → List ℚ
  | [] => []
  | [a] => [a]
  | a :: b :: rest => mean2 a b :: roll3Aux a b rest

/-- `forced_vals[mask_post] = <repl>`: write the replacement values
back at the post-cutoff positions, in order; other positions keep their
value. -/
def scatterPost (cutoff : ℤ) : List ℤ → List ℚ → List ℚ → List ℚ
  | [], _, _ => []
  | _ :: _, [], _ => []
  | d :: ds, v :: vs, repl =>
    if cutoff ≤ d then
      match repl with
      | r :: rs => r :: scatterPost cutoff ds vs rs
      | [] => v :: scatterPost cutoff ds vs []
    else v :: scatterPost cutoff ds vs repl

/-- `force_smooth_diameter(dates, smoothed_vals, cutoff_str, max_drop)`:
running maximum before the cutoff, bounded-drop clamping walk from the
cutoff on, then one centered 3-wide rolling mean over the post-cutoff
subsequence only. -/
def forceSmoothDiameter (dates : List ℤ) (vals : List ℚ) (cutoff : ℤ) (maxDrop : ℚ) :
    List ℚ :=
  let f1 := runningMaxPre cutoff none dates vals
  let f2 := clampWalk cutoff maxDrop none dates f1
  scatterPost cutoff dates f2 (roll3 (postVals cutoff dates f2))

/-! ## Lemmas: the stabilizer leaves pre-cutoff positions to the
running maximum and they stay monotone -/

lemma clampWalk_pre_getElem (cutoff : ℤ) (maxDrop : ℚ) :
    ∀ (ds : List ℤ) (vs : List ℚ) (prev : Option ℚ) (i : ℕ) (d : ℤ),
      ds[i]? = some d → d < cutoff →
      (clampWalk cutoff maxDrop prev ds vs)[i]? = vs[i]? := by
  intro ds
  induction ds with
  | nil => intro vs prev i d hd; simp at hd
  | cons d0 ds ih =>
    intro vs prev i d hd hpre
    cases vs with
    | nil => simp [clampWalk]
    | cons v vs =>
      cases i with
      | zero =>
        simp only [List.getElem?_cons_zero, Option.some_inj] at hd
        subst hd
        cases prev with
        | none => simp [clampWalk]
        | some p =>
          have : ¬ (cutoff ≤ d0 ∧ v < p - maxDrop) := fun h => absurd h.1 (by omega)
          simp [clampWalk, this]
      | succ i =>
        simp only [List.getElem?_cons_succ] at hd ⊢
        cases prev with
        | none => simpa [clampWalk] using ih vs (some v) i d hd hpre
        | some p =>
          by_cases hc : cutoff ≤ d0 ∧ v < p - maxDrop
          · simpa [clampWalk, hc] using ih vs (some (p - maxDrop)) i d hd hpre
          · simpa [clampWalk, hc] using ih vs (some v) i d hd hpre

lemma scatterPost_pre_getElem (cutoff : ℤ) :
    ∀ (ds : List ℤ) (vs repl : List ℚ) (i : ℕ) (d : ℤ),
      ds[i]? = some d → d < cutoff →
      (scatterPost cutoff ds vs repl)[i]? = vs[i]? := by
  intro ds
  induction ds with
  | nil => intro vs repl i d hd; simp at hd
  | cons d0 ds ih =>
    intro vs repl i d hd hpre
    cases vs with
    | nil => simp [scatterPost]
    | cons v vs =>
      cases i with
      | zero =>
        simp only [List.getElem?_cons_zero, Option.some_inj] at hd
        subst hd
        have : ¬ (cutoff ≤ d0) := by omega
        simp [scatterPost, this]
      | succ i =>
        simp only [List.getElem?_cons_succ] at hd ⊢
        by_cases hc : cutoff ≤ d0
        · cases repl with
          | nil => simpa [scatterPost, hc] using ih vs [] i d hd hpre
          | cons r rs => simpa [scatterPost, hc] using ih vs rs i d hd hpre
        · simpa [scatterPost, hc] using ih vs repl i d hd hpre

lemma runningMaxPre_carry_le (cutoff : ℤ) :
    ∀ (ds : List ℤ) (vs : List ℚ) (c : ℚ) (i : ℕ) (d : ℤ) (a : ℚ),
      ds[i]? = some d → d < cutoff →
      (runningMaxPre cutoff (some c) ds vs)[i]? = some a → c ≤ a := by
  intro ds
  induction ds with
  | nil => intro vs c i d a hd; simp at hd
  | cons d0 ds ih =>
    intro vs c i d a hd hpre ha
    cases vs with
    | nil => simp [runningMaxPre] at ha
    | cons v vs =>
      cases i with
      | zero =>
        simp only [List.getElem?_cons_zero, Option.some_inj] at hd
        subst hd
        simp only [runningMaxPre, if_pos hpre, List.getElem?_cons_zero,
          Option.some_inj] at ha
        subst ha
        exact le_max_left c v
      | succ i =>
        simp only [List.getElem?_cons_succ] at hd
        by_cases hc : d0 < cutoff
        · simp only [runningMaxPre, if_pos hc, List.getElem?_cons_succ] at ha
          exact le_trans (le_max_left c v) (ih vs (max c v) i d a hd hpre ha)
        · simp only [runningMaxPre, if_neg hc, List.getElem?_cons_succ] at ha
          exact ih vs c i d a hd hpre ha

lemma runningMaxPre_pre_mono (cutoff : ℤ) :
    ∀ (ds : List ℤ) (vs : List ℚ) (carry : Option ℚ) (i j : ℕ) (di dj : ℤ) (a b : ℚ),
      i < j → ds[i]? = some di → di < cutoff → ds[j]? = some dj → dj < cutoff →
      (runningMaxPre cutoff carry ds vs)[i]? = some a →
      (runningMaxPre cutoff carry ds vs)[j]? = some b → a ≤ b := by
  intro ds
  induction ds with
  | nil => intro vs carry i j di dj a b _ hdi; simp at hdi
  | cons d0 ds ih =>
    intro vs carry i j di dj a b hij hdi hpi hdj hpj ha hb
    cases vs with
    | nil => simp [runningMaxPre] at ha
    | cons v vs =>
      cases i with
      | zero =>
        simp only [List.getElem?_cons_zero, Option.some_inj] at hdi
        subst hdi
        obtain ⟨j, rfl⟩ : ∃ j', j = j' + 1 := ⟨j - 1, by omega⟩
        simp only [List.getElem?_cons_succ] at hdj
        cases carry with
        | none =>
          simp only [runningMaxPre, if_pos hpi, List.getElem?_cons_zero,
            Option.some_inj, List.getElem?_cons_succ] at ha hb
          exact ha ▸ runningMaxPre_carry_le cutoff ds vs v j dj b hdj hpj hb
        | some c =>
          simp only [runningMaxPre, if_pos hpi, List.getElem?_cons_zero,
            Option.some_inj, List.getElem?_cons_succ] at ha hb
          exact ha ▸ runningMaxPre_carry_le cutoff ds vs (max c v) j dj b hdj hpj hb
      | succ i =>
        obtain ⟨j, rfl⟩ : ∃ j', j = j' + 1 := ⟨j - 1, by omega⟩
        simp only [List.getElem?_cons_succ] at hdi hdj
        cases carry with
        | none =>
          by_cases hc : d0 < cutoff
          · simp only [runningMaxPre, if_pos hc, List.getElem?_cons_succ] at ha hb
            exact ih vs (some v) i j di dj a b (by omega) hdi hpi hdj hpj ha hb
          · simp only [runningMaxPre, if_neg hc, List.getElem?_cons_succ] at ha hb
            exact ih vs none i j di dj a b (by omega) hdi hpi hdj hpj ha hb
        | some c =>
          by_cases hc : d0 < cutoff
          · simp only [runningMaxPre, if_pos hc, List.getElem?_cons_succ] at ha hb
            exact ih vs (some (max c v)) i j di dj a b (by omega) hdi hpi hdj hpj ha hb
          · simp only [runningMaxPre, if_neg hc, List.getElem?_cons_succ] at ha hb
            exact ih vs (some c) i j di dj a b (by omega) hdi hpi hdj hpj ha hb

/-! ## Claim C4 -/

/-- C4: in the Constrained Stabilizer's output, any two positions whose
dates lie strictly before the cutoff are in non-decreasing order: the
pre-cutoff positions carry the running maximum of the pre-cutoff input
subsequence, the clamping walk never touches a pre-cutoff position, and
the trailing rolling mean is applied to post-cutoff positions only. -/
theorem force_smooth_pre_cutoff_monotone (dates : List ℤ) (vals : List ℚ)
    (cutoff : ℤ) (maxDrop : ℚ) (i j : ℕ) (hij : i < j) (di dj : ℤ) (a b : ℚ)
    (hdi : dates[i]? = some di) (hdj : dates[j]? = some dj)
    (hpi : di < cutoff) (hpj : dj < cutoff)
    (ha : (forceSmoothDiameter dates vals cutoff maxDrop)[i]? = some a)
    (hb : (forceSmoothDiameter dates vals cutoff maxDrop)[j]? = some b) :
    a ≤ b := by
  unfold forceSmoothDiameter at ha hb
  rw [scatterPost_pre_getElem cutoff dates _ _ i di hdi hpi,
    clampWalk_pre_getElem cutoff maxDrop dates _ none i di hdi hpi] at ha
  rw [scatterPost_pre_getElem cutoff dates _ _ j dj hdj hpj,
    clampWalk_pre_getElem cutoff maxDrop dates _ none j dj hdj hpj] at hb
  exact runningMaxPre_pre_mono cutoff dates vals none i j di dj a b hij hdi hpi hdj hpj ha hb

/-- C4 witness: on dates `[0, 1]` (both before cutoff 5) with values
`[1, 3]`, the stabilized output is `[1, 3]` and position 0 ≤ position 1. -/
theorem force_smooth_pre_cutoff_monotone_witness :
    (forceSmoothDiameter [0, 1] [1, 3] 5 (1 / 20))[0]? = some 1 ∧
    (forceSmoothDiameter [0, 1] [1, 3] 5 (1 / 20))[1]? = some 3 ∧ (1 : ℚ) ≤ 3 := by
  have h0 : (forceSmoothDiameter [0, 1] [1, 3] 5 (1 / 20))[0]? = some 1 := by
    norm_num [forceSmoothDiameter, runningMaxPre, clampWalk, scatterPost, postVals,
      roll3, max_def]
  have h1 : (forceSmoothDiameter [0, 1] [1, 3] 5 (1 / 20))[1]? = some 3 := by
    norm_num [forceSmoothDiameter, runningMaxPre, clampWalk, scatterPost, postVals,
      roll3, max_def]
  exact ⟨h0, h1, force_smooth_pre_cutoff_monotone [0, 1] [1, 3] 5 (1 / 20) 0 1
    (by omega) 0 1 1 3 (by simp) (by simp) (by omega) (by omega) h0 h1⟩

/-! ## Lemmas: bounded drop after the cutoff survives the rolling pass -/

lemma clampWalk_cons_eq (cutoff : ℤ) (maxDrop : ℚ) (prev : Option ℚ) (d0 : ℤ)
    (ds : List ℤ) (v : ℚ) (vs : List ℚ) :
    ∃ v2, clampWalk cutoff maxDrop prev (d0 :: ds) (v :: vs) =
      v2 :: clampWalk cutoff maxDrop (some v2) ds vs := by
  cases prev with
  | none => exact ⟨v, rfl⟩
  | some p =>
    by_cases hc : cutoff ≤ d0 ∧ v < p - maxDrop
    · exact ⟨p - maxDrop, by simp [clampWalk, hc]⟩
    · exact ⟨v, by simp [clampWalk, hc]⟩

lemma clampWalk_head_ge (cutoff : ℤ) (maxDrop : ℚ) (ds : List ℤ) (vs : List ℚ)
    (p : ℚ) (d : ℤ) (b : ℚ) (hd : ds[0]? = some d) (hpost : cutoff ≤ d)
    (hb : (clampWalk cutoff maxDrop (some p) ds vs)[0]? = some b) :
    p - maxDrop ≤ b := by
  cases ds with
  | nil => simp at hd
  | cons d0 ds =>
    cases vs with
    | nil => simp [clampWalk] at hb
    | cons v vs =>
      simp only [List.getElem?_cons_zero, Option.some_inj] at hd
      subst hd
      by_cases hc : cutoff ≤ d0 ∧ v < p - maxDrop
      · simp only [clampWalk, if_pos hc, List.getElem?_cons_zero, Option.some_inj] at hb
        exact hb.le
      · simp only [clampWalk, if_neg hc, List.getElem?_cons_zero, Option.some_inj] at hb
        have hnv : ¬ v < p - maxDrop := fun hv => hc ⟨hpost, hv⟩
        subst hb
        linarith

lemma clampWalk_post_step (cutoff : ℤ) (maxDrop : ℚ) :
    ∀ (ds : List ℤ) (vs : List ℚ) (prev : Option ℚ) (k : ℕ) (d : ℤ) (a b : ℚ),
      ds[k + 1]? = some d → cutoff ≤ d →
      (clampWalk cutoff maxDrop prev ds vs)[k]? = some a →
      (clampWalk cutoff maxDrop prev ds vs)[k + 1]? = some b →
      a - maxDrop ≤ b := by
  intro ds
  induction ds with
  | nil => intro vs prev k d a b hd; simp at hd
  | cons d0 ds ih =>
    intro vs prev k d a b hd hpost ha hb
    cases vs with
    | nil => simp [clampWalk] at ha
    | cons v vs =>
      obtain ⟨v2, he⟩ := clampWalk_cons_eq cutoff maxDrop prev d0 ds v vs
      rw [he] at ha hb
      simp only [List.getElem?_cons_succ] at hd
      cases k with
      | zero =>
        simp only [List.getElem?_cons_zero, Option.some_inj] at ha
        simp only [List.getElem?_cons_succ] at hb
        exact ha ▸ clampWalk_head_ge cutoff maxDrop ds vs v2 d b hd hpost hb
      | succ k =>
        simp only [List.getElem?_cons_succ] at ha hb
        exact ih vs (some v2) k d a b hd hpost ha hb

lemma runningMaxPre_length (cutoff : ℤ) :
    ∀ (ds : List ℤ) (vs : List ℚ) (carry : Option ℚ),
      (runningMaxPre cutoff carry ds vs).length = min ds.length vs.length := by
  intro ds
  induction ds with
  | nil => intro vs carry; simp [runningMaxPre]
  | cons d0 ds ih =>
    intro vs carry
    cases vs with
    | nil => simp [runningMaxPre]
    | cons v vs =>
      by_cases hc : d0 < cutoff
      · cases carry <;> simp [runningMaxPre, hc, ih] <;> omega
      · simp [runningMaxPre, hc, ih]
        omega

lemma clampWalk_length (cutoff : ℤ) (maxDrop : ℚ) :
    ∀ (ds : List ℤ) (vs : List ℚ) (prev : Option ℚ),
      (clampWalk cutoff maxDrop prev ds vs).length = min ds.length vs.length := by
  intro ds
  induction ds with
  | nil => intro vs prev; simp [clampWalk]
  | cons d0 ds ih =>
    intro vs prev
    cases vs with
    | nil => simp [clampWalk]
    | cons v vs =>
      obtain ⟨v2, he⟩ := clampWalk_cons_eq cutoff maxDrop prev d0 ds v vs
      rw [he]
      simp [ih]
      omega

lemma roll3Aux_length (x y : ℚ) : ∀ rest : List ℚ,
    (roll3Aux x y rest).length = rest.length + 1 := by
  intro rest
  induction rest generalizing x y with
  | nil => simp [roll3Aux]
  | cons z r ih => simp [roll3Aux, ih]

lemma roll3_length (l : List ℚ) : (roll3 l).length = l.length := by
  match l with
  | [] => rfl
  | [a] => rfl
  | a :: b :: rest => simp [roll3, roll3Aux_length]

lemma sorted_split (cutoff : ℤ) (ds : List ℤ) (hs : List.Sorted (· ≤ ·) ds) :
    ∃ dpre dpost : List ℤ, ds = dpre ++ dpost ∧
      (∀ d ∈ dpre, d < cutoff) ∧ (∀ d ∈ dpost, cutoff ≤ d) := by
  induction ds with
  | nil => exact ⟨[], [], rfl, by simp, by simp⟩
  | cons d0 ds ih =>
    rw [List.sorted_cons] at hs
    by_cases hc : d0 < cutoff
    · obtain ⟨dpre, dpost, heq, hpre, hpost⟩ := ih hs.2
      refine ⟨d0 :: dpre, dpost, by simp [heq], ?_, hpost⟩
      intro d hd
      rcases List.mem_cons.mp hd with rfl | hd
      · exact hc
      · exact hpre d hd
    · refine ⟨[], d0 :: ds, rfl, by simp, ?_⟩
      intro d hd
      rcases List.mem_cons.mp hd with rfl | hd
      · omega
      · exact le_trans (by omega) (hs.1 d hd)

lemma postVals_append_pre (cutoff : ℤ) :
    ∀ (dpre : List ℤ) (va : List ℚ) (d2 : List ℤ) (v2 : List ℚ),
      dpre.length = va.length → (∀ d ∈ dpre, d < cutoff) →
      postVals cutoff (dpre ++ d2) (va ++ v2) = postVals cutoff d2 v2 := by
  intro dpre
  induction dpre with
  | nil =>
    intro va d2 v2 hlen _
    have : va = [] := List.length_eq_zero.mp (by simpa using hlen.symm)
    simp [this]
  | cons d0 ds ih =>
    intro va d2 v2 hlen hpre
    cases va with
    | nil => simp at hlen
    | cons v vs =>
      have hd0 : ¬ cutoff ≤ d0 := by
        have := hpre d0 (by simp)
        omega
      simp only [List.cons_append, postVals, if_neg hd0]
      exact ih vs d2 v2 (by simpa using hlen) (fun d hd => hpre d (by simp [hd]))

lemma postVals_all_post (cutoff : ℤ) :
    ∀ (dpost : List ℤ) (vb : List ℚ), dpost.length = vb.length →
      (∀ d ∈ dpost, cutoff ≤ d) → postVals cutoff dpost vb = vb := by
  intro dpost
  induction dpost with
  | nil =>
    intro vb hlen _
    have : vb = [] := List.length_eq_zero.mp (by simpa using hlen.symm)
    simp [this, postVals]
  | cons d0 ds ih =>
    intro vb hlen hpost
    cases vb with
    | nil => simp at hlen
    | cons v vs =>
      have hd0 : cutoff ≤ d0 := hpost d0 (by simp)
      simp only [postVals, if_pos hd0, List.cons.injEq, true_and]
      exact ih vs (by simpa using hlen) (fun d hd => hpost d (by simp [hd]))

lemma scatterPost_append_pre (cutoff : ℤ) :
    ∀ (dpre : List ℤ) (va : List ℚ) (d2 : List ℤ) (v2 repl : List ℚ),
      dpre.length = va.length → (∀ d ∈ dpre, d < cutoff) →
      scatterPost cutoff (dpre ++ d2) (va ++ v2) repl =
        va ++ scatterPost cutoff d2 v2 repl := by
  intro dpre
  induction dpre with
  | nil =>
    intro va d2 v2 repl hlen _
    have : va = [] := List.length_eq_zero.mp (by simpa using hlen.symm)
    simp [this]
  | cons d0 ds ih =>
    intro va d2 v2 repl hlen hpre
    cases va with
    | nil => simp at hlen
    | cons v vs =>
      have hd0 : ¬ cutoff ≤ d0 := by
        have := hpre d0 (by simp)
        omega
      simp only [List.cons_append, scatterPost, if_neg hd0, List.cons.injEq, true_and]
      exact ih vs d2 v2 repl (by simpa using hlen) (fun d hd => hpre d (by simp [hd]))

lemma scatterPost_all_post (cutoff : ℤ) :
    ∀ (dpost : List ℤ) (vb repl : List ℚ), dpost.length = vb.length →
      vb.length = repl.length → (∀ d ∈ dpost, cutoff ≤ d) →
      scatterPost cutoff dpost vb repl = repl := by
  intro dpost
  induction dpost with
  | nil =>
    intro vb repl hlen hlen2 _
    have hvb : vb = [] := List.length_eq_zero.mp (by simpa using hlen.symm)
    have : repl = [] := List.length_eq_zero.mp (by simp [hvb] at hlen2; omega)
    simp [this, scatterPost]
  | cons d0 ds ih =>
    intro vb repl hlen hlen2 hpost
    cases vb with
    | nil => simp at hlen
    | cons v vs =>
      cases repl with
      | nil => simp at hlen2
      | cons r rs =>
        have hd0 : cutoff ≤ d0 := hpost d0 (by simp)
        simp only [scatterPost, if_pos hd0, List.cons.injEq, true_and]
        exact ih vs rs (by simpa using hlen) (by simpa using hlen2)
          (fun d hd => hpost d (by simp [hd]))

lemma chain'_getElem?_step {R : ℚ → ℚ → Prop} :
    ∀ (l : List ℚ) (k : ℕ) (a b : ℚ),
      List.Chain' R l → l[k]? = some a → l[k + 1]? = some b → R a b := by
  intro l
  induction l with
  | nil => intro k a b _ ha; simp at ha
  | cons x xs ih =>
    intro k a b hch ha hb
    cases k with
    | zero =>
      simp only [List.getElem?_cons_zero, Option.some_inj] at ha
      simp only [List.getElem?_cons_succ] at hb
      cases xs with
      | nil => simp at hb
      | cons y ys =>
        simp only [List.getElem?_cons_zero, Option.some_inj] at hb
        rw [List.chain'_cons] at hch
        exact ha ▸ hb ▸ hch.1
    | succ k =>
      simp only [List.getElem?_cons_succ] at ha hb
      exact ih k a b hch.tail ha hb

lemma roll3Aux_chain (dq : ℚ) (hd : 0 ≤ dq) :
    ∀ (rest : List ℚ) (x y : ℚ), x - dq ≤ y →
      List.Chain' (fun a b => a - dq ≤ b) (y :: rest) →
      List.Chain' (fun a b => a - dq ≤ b) (roll3Aux x y rest) := by
  intro rest
  induction rest with
  | nil => intro x y _ _; simp [roll3Aux]
  | cons z r ih =>
    intro x y hxy hch
    rw [List.chain'_cons] at hch
    obtain ⟨hyz, hch⟩ := hch
    simp only [roll3Aux]
    rw [List.chain'_cons']
    refine ⟨?_, ih y z hyz hch⟩
    intro w hw
    cases r with
    | nil =>
      simp [roll3Aux] at hw
      subst hw
      unfold mean3 mean2
      linarith
    | cons u r' =>
      simp [roll3Aux] at hw
      subst hw
      rw [List.chain'_cons] at hch
      unfold mean3
      linarith [hch.1]

lemma roll3_chain (dq : ℚ) (hd : 0 ≤ dq) :
    ∀ l : List ℚ, List.Chain' (fun a b => a - dq ≤ b) l →
      List.Chain' (fun a b => a - dq ≤ b) (roll3 l) := by
  intro l hch
  match l with
  | [] => simp [roll3]
  | [a] => simp [roll3]
  | a :: b :: rest =>
    rw [List.chain'_cons] at hch
    obtain ⟨hab, hch⟩ := hch
    simp only [roll3]
    rw [List.chain'_cons']
    refine ⟨?_, roll3Aux_chain dq hd rest a b hab hch⟩
    intro w hw
    cases rest with
    | nil =>
      simp [roll3Aux] at hw
      subst hw
      unfold mean2
      linarith
    | cons z r' =>
      simp [roll3Aux] at hw
      subst hw
      rw [List.chain'_cons] at hch
      unfold mean2 mean3
      linarith [hch.1]

/-! ## Claim C5 -/

/-- C5: in the Constrained Stabilizer's output, every adjacent pair of
positions whose dates are on or after the cutoff satisfies
`out[i+1] ≥ out[i] - max_drop` — with `ε = 0`: the clamping walk
guarantees the bound pairwise, and the trailing centered 3-wide rolling
mean over the post-cutoff segment can only soften steps, never deepen a
drop beyond `max_drop`.  Dates are sorted (the pipeline sorts the series
by date before stabilizing) and `max_drop ≥ 0` (default `0.05`). -/
theorem force_smooth_post_cutoff_bounded_drop (dates : List ℤ) (vals : List ℚ)
    (cutoff : ℤ) (maxDrop : ℚ) (hsorted : List.Sorted (· ≤ ·) dates)
    (hdrop : 0 ≤ maxDrop) (hlen : dates.length = vals.length)
    (i : ℕ) (di dj : ℤ) (a b : ℚ)
    (hdi : dates[i]? = some di) (hdj : dates[i + 1]? = some dj)
    (hpi : cutoff ≤ di) (hpj : cutoff ≤ dj)
    (ha : (forceSmoothDiameter dates vals cutoff maxDrop)[i]? = some a)
    (hb : (forceSmoothDiameter dates vals cutoff maxDrop)[i + 1]? = some b) :
    a - maxDrop ≤ b := by
  obtain ⟨dpre, dpost, hdec, hpre, hpost⟩ := sorted_split cutoff dates hsorted
  subst hdec
  unfold forceSmoothDiameter at ha hb
  simp only [] at ha hb
  have hf2len :
      (clampWalk cutoff maxDrop none (dpre ++ dpost)
        (runningMaxPre cutoff none (dpre ++ dpost) vals)).length =
      (dpre ++ dpost).length := by
    rw [clampWalk_length, runningMaxPre_length]
    omega
  generalize hgen : clampWalk cutoff maxDrop none (dpre ++ dpost)
      (runningMaxPre cutoff none (dpre ++ dpost) vals) = f2 at ha hb hf2len
  rw [List.length_append] at hf2len
  have hple : dpre.length ≤ f2.length := by omega
  have htk : (f2.take dpre.length).length = dpre.length := by
    rw [List.length_take]
    omega
  have hdp : (f2.drop dpre.length).length = dpost.length := by
    rw [List.length_drop]
    omega
  have hpv : postVals cutoff (dpre ++ dpost) f2 = f2.drop dpre.length := by
    conv_lhs => rw [← List.take_append_drop dpre.length f2]
    rw [postVals_append_pre cutoff dpre (f2.take dpre.length) dpost
        (f2.drop dpre.length) htk.symm hpre,
      postVals_all_post cutoff dpost (f2.drop dpre.length) hdp.symm hpost]
  rw [hpv] at ha hb
  have hsc : ∀ repl : List ℚ, (f2.drop dpre.length).length = repl.length →
      scatterPost cutoff (dpre ++ dpost) f2 repl =
        f2.take dpre.length ++ repl := by
    intro repl hr
    conv_lhs => rw [← List.take_append_drop dpre.length f2]
    rw [scatterPost_append_pre cutoff dpre (f2.take dpre.length) dpost
        (f2.drop dpre.length) repl htk.symm hpre,
      scatterPost_all_post cutoff dpost (f2.drop dpre.length) repl hdp.symm hr hpost]
  rw [hsc (roll3 (f2.drop dpre.length)) (roll3_length _).symm] at ha hb
  have hip : dpre.length ≤ i := by
    by_contra hlt
    push_neg at hlt
    rw [List.getElem?_append_left hlt] at hdi
    have := hpre di (List.getElem?_mem hdi)
    omega
  have hchain : List.Chain' (fun x y => x - maxDrop ≤ y) (f2.drop dpre.length) := by
    rw [List.chain'_iff_get]
    intro k hk
    have hk' : k < (f2.drop dpre.length).length := by omega
    have hk1 : k + 1 < (f2.drop dpre.length).length := by omega
    have e1 : f2[dpre.length + k]? =
        some ((f2.drop dpre.length).get ⟨k, hk'⟩) := by
      rw [← List.getElem?_drop f2 dpre.length k, List.getElem?_eq_getElem hk']
      simp
    have e2 : f2[dpre.length + (k + 1)]? =
        some ((f2.drop dpre.length).get ⟨k + 1, hk1⟩) := by
      rw [← List.getElem?_drop f2 dpre.length (k + 1), List.getElem?_eq_getElem hk1]
      simp
    obtain ⟨d2, hd2⟩ : ∃ d2, dpost[k + 1]? = some d2 := by
      rw [List.getElem?_eq_getElem (by omega)]
      exact ⟨_, rfl⟩
    have hdate : (dpre ++ dpost)[(dpre.length + k) + 1]? = some d2 := by
      rw [List.getElem?_append_right (by omega)]
      have h' : dpre.length + k + 1 - dpre.length = k + 1 := by omega
      rw [h']
      exact hd2
    have hcut : cutoff ≤ d2 := hpost d2 (List.getElem?_mem hd2)
    exact clampWalk_post_step cutoff maxDrop (dpre ++ dpost)
      (runningMaxPre cutoff none (dpre ++ dpost) vals) none (dpre.length + k) d2 _ _
      hdate hcut (by rw [hgen]; exact e1) (by rw [hgen]; exact e2)
  have hroll := roll3_chain maxDrop hdrop (f2.drop dpre.length) hchain
  rw [List.getElem?_append_right
    (show (f2.take dpre.length).length ≤ i by rw [htk]; exact hip)] at ha
  rw [List.getElem?_append_right
    (show (f2.take dpre.length).length ≤ i + 1 by rw [htk]; omega)] at hb
  rw [htk] at ha hb
  have hidx : i + 1 - dpre.length = (i - dpre.length) + 1 := by omega
  rw [hidx] at hb
  exact chain'_getElem?_step _ (i - dpre.length) a b hroll ha hb

/-- C5 witness: dates `[0, 10, 11]` with cutoff 5 and values `[2, 2, 1]`
give the stabilized series `[2, 79/40, 79/40]`; the adjacent post-cutoff
pair at positions 1 and 2 satisfies the bounded-drop inequality. -/
theorem force_smooth_post_cutoff_bounded_drop_witness :
    (forceSmoothDiameter [0, 10, 11] [2, 2, 1] 5 (1 / 20))[1]? = some (79 / 40) ∧
    (forceSmoothDiameter [0, 10, 11] [2, 2, 1] 5 (1 / 20))[2]? = some (79 / 40) ∧
    (79 / 40 : ℚ) - 1 / 20 ≤ 79 / 40 := by
  have h1 : (forceSmoothDiameter [0, 10, 11] [2, 2, 1] 5 (1 / 20))[1]? =
      some (79 / 40) := by
    norm_num [forceSmoothDiameter, runningMaxPre, clampWalk, scatterPost, postVals,
      roll3, roll3Aux, mean2, mean3, max_def]
  have h2 : (forceSmoothDiameter [0, 10, 11] [2, 2, 1] 5 (1 / 20))[2]? =
      some (79 / 40) := by
    norm_num [forceSmoothDiameter, runningMaxPre, clampWalk, scatterPost, postVals,
      roll3, roll3Aux, mean2, mean3, max_def]
  exact ⟨h1, h2, force_smooth_post_cutoff_bounded_drop [0, 10, 11] [2, 2, 1] 5 (1 / 20)
    (by decide) (by norm_num) (by simp) 1 10 11 (79 / 40) (79 / 40)
    (by simp) (by simp) (by omega) (by omega) h1 h2⟩

/-! ## Curve Fitter gate — trend section of `predict_time_series`
(Main_code.py, Part 10) -/

/-- `np.nanmax` on a `NaN`-free list (fold of `max`; junk 0 on `[]`,
never reached behind the source's guards). -/
def listMax : List ℚ → ℚ
  | [] => 0
  | a :: t => t.foldl max a

/-- `np.nanmin` on a `NaN`-free list. -/
def listMin : List ℚ → ℚ
  | [] => 0
  | a :: t => t.foldl min a

/-- The seven fitted parameters `(A1, B1, C1, A2, B2, C2, D)`. -/
abbrev FitParams := ℚ × ℚ × ℚ × ℚ × ℚ × ℚ × ℚ

/-- The trend-fitting gate: `curve_fit` is attempted only when
`len(x_num) >= 6` **and** `nanmax(y) - nanmin(y) > 0.1`; otherwise
`fitted_params` stays `None`.  `curveFit` abstracts
`scipy.optimize.curve_fit`, returning `none` when the fit raises
`RuntimeError` (which the source catches, leaving no parameters). -/
def fitTrendParams (curveFit : List ℚ → List ℚ → Option FitParams)
    (xs ys : List ℚ) : Option FitParams :=
  if 6 ≤ xs.length ∧ 1 / 10 < listMax ys - listMin ys then curveFit xs ys else none

/-! ## Claim C6 -/

/-- C6: fitting is attempted iff at least 6 points exist and the value
range exceeds 0.1; when either precondition fails no parameters are
produced (and nothing is raised — the embedding is total), in
particular fewer than 6 points always yields `none`. -/
theorem fit_gate_iff (curveFit : List ℚ → List ℚ → Option FitParams)
    (xs ys : List ℚ) :
    (∀ p, fitTrendParams curveFit xs ys = some p →
        6 ≤ xs.length ∧ 1 / 10 < listMax ys - listMin ys) ∧
    (xs.length < 6 → fitTrendParams curveFit xs ys = none) ∧
    (6 ≤ xs.length → 1 / 10 < listMax ys - listMin ys →
        fitTrendParams curveFit xs ys = curveFit xs ys) := by
  unfold fitTrendParams
  refine ⟨?_, ?_, ?_⟩
  · intro p hp
    by_cases h : 6 ≤ xs.length ∧ 1 / 10 < listMax ys - listMin ys
    · exact h
    · rw [if_neg h] at hp
      exact absurd hp (by simp)
  · intro h
    rw [if_neg]
    rintro ⟨h6, _⟩
    omega
  · intro h6 hr
    rw [if_pos ⟨h6, hr⟩]

/-- C6 witness: three points are fewer than six, so the gate yields no
parameters even for a `curve_fit` that would always succeed. -/
theorem fit_gate_iff_witness :
    fitTrendParams (fun _ _ => some (0, 0, 0, 0, 0, 0, 0)) [0, 1, 2] [0, 1, 2] =
      none :=
  (fit_gate_iff (fun _ _ => some (0, 0, 0, 0, 0, 0, 0)) [0, 1, 2] [0, 1, 2]).2.1
    (by norm_num)

/-! ## Phase/Peak Extractor — phase line labels (Main_code.py, Part 10) -/

/-- The candidate phase-boundary day offsets `B1 ± offset_factor/C1`,
`B2 ± offset_factor/C2`, in the order the source appends them, each pair
guarded by `abs(C) > 1e-5`. -/
def phaseCandidates (offsetFactor b1 c1 b2 c2 : ℚ) : List ℚ :=
  (if 1 / 100000 < |c1| then
    [b1 - offsetFactor / c1, b1 + offsetFactor / c1] else []) ++
  (if 1 / 100000 < |c2| then
    [b2 - offsetFactor / c2, b2 + offsetFactor / c2] else [])

/-- `append_phase_line_label(xval)` applied to every candidate: the
phase date is `d_start + xval` days (with `d_start = dmin`, the minimum
observed date, as a day number) and it is appended only when it lies in
the observed range `[dmin, dmax]`. -/
def phaseLinePositions (dmin dmax offsetFactor b1 c1 b2 c2 : ℚ) : List ℚ :=
  (phaseCandidates offsetFactor b1 c1 b2 c2).filterMap (fun x =>
    if dmin ≤ dmin + x ∧ dmin + x ≤ dmax then some (dmin + x) else none)

/-! ## Claim C7 -/

/-- C7: the appended phase-line positions are exactly the dates
`dmin + x` for the candidates `x` (the four `B ± offset_factor/C`
values, a term's pair skipped when `|C| ≤ 1e-5`) that fall inside the
observed range; in particular every produced position lies in
`[dmin, dmax]` and no out-of-range candidate ever appears. -/
theorem phase_lines_exactly_candidates_in_range
    (dmin dmax offsetFactor b1 c1 b2 c2 : ℚ) :
    (∀ p ∈ phaseLinePositions dmin dmax offsetFactor b1 c1 b2 c2,
        dmin ≤ p ∧ p ≤ dmax) ∧
    (∀ p, p ∈ phaseLinePositions dmin dmax offsetFactor b1 c1 b2 c2 ↔
        ∃ x ∈ phaseCandidates offsetFactor b1 c1 b2 c2,
          p = dmin + x ∧ dmin ≤ p ∧ p ≤ dmax) := by
  constructor
  · intro p hp
    simp only [phaseLinePositions, List.mem_filterMap] at hp
    obtain ⟨x, _, hx⟩ := hp
    by_cases h : dmin ≤ dmin + x ∧ dmin + x ≤ dmax
    · rw [if_pos h] at hx
      cases hx
      exact h
    · rw [if_neg h] at hx
      exact absurd hx (by simp)
  · intro p
    simp only [phaseLinePositions, List.mem_filterMap]
    constructor
    · rintro ⟨x, hxmem, hx⟩
      by_cases h : dmin ≤ dmin + x ∧ dmin + x ≤ dmax
      · rw [if_pos h] at hx
        cases hx
        exact ⟨x, hxmem, rfl, h.1, h.2⟩
      · rw [if_neg h] at hx
        exact absurd hx (by simp)
    · rintro ⟨x, hxmem, rfl, h1, h2⟩
      exact ⟨x, hxmem, by rw [if_pos ⟨h1, h2⟩]⟩

/-- C7 witness: with `B1 = 10`, `C1 = 1`, `B2 = 50`, `C2 = 1`,
`offset_factor = 2` and range `[0, 100]`, the produced position `8`
indeed lies in the observed range. -/
theorem phase_lines_witness : (0 : ℚ) ≤ 8 ∧ (8 : ℚ) ≤ 100 := by
  have h8 : (8 : ℚ) ∈ phaseLinePositions 0 100 2 10 1 50 1 := by
    norm_num [phaseLinePositions, phaseCandidates, List.filterMap_cons, abs_one]
  exact (phase_lines_exactly_candidates_in_range 0 100 2 10 1 50 1).1 8 h8

/-! ## Peak date — `np.nanargmax` over the stabilized series (Part 10) -/

/-- The index of the first occurrence of `v` (length of the list when
absent). -/
def firstIdxOf (v : ℚ) : List ℚ → ℕ
  | [] => 0
  | a :: t => if a = v then 0 else firstIdxOf v t + 1

/-- `np.nanargmax` on a `NaN`-free series: the first index attaining
the maximum. -/
def nanargmax (l : List ℚ) : ℕ := firstIdxOf (listMax l) l

/-- `idx_pk = np.nanargmax(y_f_smooth); pk_date =
df_filtered["date"].iloc[idx_pk]`. -/
def peakDate (dates : List ℤ) (vals : List ℚ) : Option ℤ := dates[nanargmax vals]?

lemma le_foldl_max : ∀ (t : List ℚ) (a : ℚ), a ≤ t.foldl max a := by
  intro t
  induction t with
  | nil => intro a; simp
  | cons x xs ih =>
    intro a
    calc a ≤ max a x := le_max_left a x
    _ ≤ xs.foldl max (max a x) := ih (max a x)

lemma mem_le_foldl_max : ∀ (t : List ℚ) (a x : ℚ), x ∈ t → x ≤ t.foldl max a := by
  intro t
  induction t with
  | nil => intro a x hx; simp at hx
  | cons y ys ih =>
    intro a x hx
    rcases List.mem_cons.mp hx with rfl | hx
    · calc x ≤ max a x := le_max_right a x
      _ ≤ ys.foldl max (max a x) := le_foldl_max ys (max a x)
    · exact ih (max a y) x hx

lemma foldl_max_mem : ∀ (t : List ℚ) (a : ℚ), t.foldl max a = a ∨ t.foldl max a ∈ t := by
  intro t
  induction t with
  | nil => intro a; exact Or.inl rfl
  | cons y ys ih =>
    intro a
    rcases ih (max a y) with h | h
    · rcases max_cases a y with ⟨he, _⟩ | ⟨he, _⟩
      · exact Or.inl (by rw [List.foldl_cons, h, he])
      · exact Or.inr (by rw [List.foldl_cons, h, he]; simp)
    · exact Or.inr (by simp [h])

lemma le_listMax (l : List ℚ) (x : ℚ) (hx : x ∈ l) : x ≤ listMax l := by
  cases l with
  | nil => simp at hx
  | cons a t =>
    rcases List.mem_cons.mp hx with rfl | hx
    · exact le_foldl_max t x
    · exact mem_le_foldl_max t a x hx

lemma listMax_mem (l : List ℚ) (hne : l ≠ []) : listMax l ∈ l := by
  cases l with
  | nil => exact absurd rfl hne
  | cons a t =>
    rcases foldl_max_mem t a with h | h
    · rw [listMax, h]
      simp
    · rw [listMax]
      simp [h]

lemma firstIdxOf_getElem (v : ℚ) : ∀ l : List ℚ, v ∈ l →
    l[firstIdxOf v l]? = some v := by
  intro l
  induction l with
  | nil => intro h; simp at h
  | cons a t ih =>
    intro hv
    by_cases ha : a = v
    · simp [firstIdxOf, ha]
    · have : v ∈ t := by
        rcases List.mem_cons.mp hv with rfl | h
        · exact absurd rfl ha
        · exact h
      simp only [firstIdxOf, if_neg ha, List.getElem?_cons_succ]
      exact ih this

lemma firstIdxOf_first (v : ℚ) : ∀ (l : List ℚ) (j : ℕ), j < firstIdxOf v l →
    l[j]? ≠ some v := by
  intro l
  induction l with
  | nil => intro j hj; simp [firstIdxOf] at hj
  | cons a t ih =>
    intro j hj
    by_cases ha : a = v
    · simp [firstIdxOf, ha] at hj
    · cases j with
      | zero => simpa using ha
      | succ j =>
        simp only [firstIdxOf, if_neg ha] at hj
        simp only [List.getElem?_cons_succ]
        exact ih j (by omega)

/-! ## Claim C8 -/

/-- C8: the peak date is the date at `nanargmax` of the stabilized
series: that index carries the maximum value, every value is at most
it, and every strictly earlier index carries a strictly smaller value
(ties resolve to the earliest date). -/
theorem peak_is_first_argmax (dates : List ℤ) (vals : List ℚ) (hne : vals ≠ []) :
    peakDate dates vals = dates[nanargmax vals]? ∧
    vals[nanargmax vals]? = some (listMax vals) ∧
    (∀ (j : ℕ) (x : ℚ), vals[j]? = some x → x ≤ listMax vals) ∧
    (∀ j : ℕ, j < nanargmax vals → ∀ x : ℚ, vals[j]? = some x → x < listMax vals) := by
  refine ⟨rfl, firstIdxOf_getElem _ vals (listMax_mem vals hne), ?_, ?_⟩
  · intro j x hx
    exact le_listMax vals x (List.getElem?_mem hx)
  · intro j hj x hx
    have hne2 : vals[j]? ≠ some (listMax vals) := firstIdxOf_first _ vals j hj
    have hle := le_listMax vals x (List.getElem?_mem hx)
    rcases lt_or_eq_of_le hle with h | h
    · exact h
    · exact absurd (h ▸ hx) hne2

/-- C8 witness: for values `[1, 3, 3, 2]` the maximum 3 first occurs at
index 1, so the peak date is the second date; the value at index 3 is
bounded by the maximum. -/
theorem peak_is_first_argmax_witness :
    peakDate [10, 20, 30, 40] [1, 3, 3, 2] = some 20 ∧ (2 : ℚ) ≤ 3 := by
  have hmax : listMax [1, 3, 3, 2] = (3 : ℚ) := by
    norm_num [listMax, max_def]
  have h := peak_is_first_argmax [10, 20, 30, 40] [1, 3, 3, 2] (by simp)
  constructor
  · rw [h.1]
    norm_num [nanargmax, hmax, firstIdxOf]
  · have := h.2.2.1 3 2 (by norm_num)
    rwa [hmax] at this

/-! ## Label Placement Solver — `auto_offset_labels` (Main_code.py,
Part 10) -/

/-- `auto_offset_labels(positions, labels, min_gap, offset_left,
offset_right)`: one left-to-right pass over the ascending positions.
A pair of adjacent positions closer than `min_gap` — the distance is
taken on the **original** `positions`, not on already adjusted ones —
is pushed apart (`+offset_left` / `+offset_right`) and the scan jumps
past both (`i += 2`); every other position is copied unchanged.  The
source's `labels` argument does not enter the position computation and
is omitted. -/
def autoOffsetLabels (minGap offsetLeft offsetRight : ℚ) : List ℚ → List ℚ
  | [] => []
  | [a] => [a]
  | a :: b :: t =>
    if b - a < minGap then
      (a + offsetLeft) :: (b + offsetRight) ::
        autoOffsetLabels minGap offsetLeft offsetRight t
    else a :: autoOffsetLabels minGap offsetLeft offsetRight (b :: t)

/-! ## Claim C9 -/

/-- C9: the solver is a single left-to-right pass: a list whose
adjacent gaps all reach `min_gap` is returned unchanged; in a triple
whose both adjacent gaps are below `min_gap` only the first pair is
adjusted (the scan advances past both members, so the pair is not
re-checked); and `[0, 0.5, 10]` with `min_gap = 1` and the default
offsets `∓3` becomes `[-3, 7/2, 10]`, leaving `10` untouched. -/
theorem label_solver_single_pass (minGap offsetLeft offsetRight : ℚ) :
    (∀ l, List.Chain' (fun a b => minGap ≤ b - a) l →
        autoOffsetLabels minGap offsetLeft offsetRight l = l) ∧
    (∀ a b c : ℚ, b - a < minGap → c - b < minGap →
        autoOffsetLabels minGap offsetLeft offsetRight [a, b, c] =
          [a + offsetLeft, b + offsetRight, c]) ∧
    autoOffsetLabels 1 (-3) 3 [0, 1 / 2, 10] = [-3, 7 / 2, 10] := by
  refine ⟨?_, ?_, ?_⟩
  · intro l
    induction l with
    | nil => intro _; rfl
    | cons a t ih =>
      cases t with
      | nil => intro _; rfl
      | cons b t2 =>
        intro hch
        rw [List.chain'_cons] at hch
        have hng : ¬ (b - a < minGap) := by linarith [hch.1]
        rw [autoOffsetLabels, if_neg hng, ih hch.2]
  · intro a b c h1 h2
    rw [autoOffsetLabels, if_pos h1]
    rfl
  · norm_num [autoOffsetLabels]

/-- C9 witness: a triple with both gaps below the threshold has only
its first pair adjusted, and a well-spread list is unchanged. -/
theorem label_solver_single_pass_witness :
    autoOffsetLabels 1 (-3) 3 [0, 2 / 5, 4 / 5] = [0 + -3, 2 / 5 + 3, 4 / 5] ∧
    autoOffsetLabels 1 (-3) 3 [0, 5, 10] = [0, 5, 10] := by
  constructor
  · exact (label_solver_single_pass 1 (-3) 3).2.1 0 (2 / 5) (4 / 5)
      (by norm_num) (by norm_num)
  · exact (label_solver_single_pass 1 (-3) 3).1 [0, 5, 10]
      (by norm_num [List.chain'_cons, List.chain'_singleton])

/-! ## Measurement Aggregator statistics (Main_code.py, Part 10,
inference loop) -/

/-- Round half to even to an integer (the tie rule of `np.round` and
Python's `round`). -/
def roundHalfEven (x : ℚ) : ℤ :=
  if x - ⌊x⌋ < 1 / 2 then ⌊x⌋
  else if 1 / 2 < x - ⌊x⌋ then ⌊x⌋ + 1
  else if ⌊x⌋ % 2 = 0 then ⌊x⌋ else ⌊x⌋ + 1

/-- `round(x, k)` with the half-to-even tie rule. -/
def npRound (k : ℕ) (x : ℚ) : ℚ := (roundHalfEven (x * 10 ^ k) : ℚ) / 10 ^ k

/-- The square of `np.std(·, ddof=1)` (sample variance): `none` models
the `NaN` numpy produces from `0/0` when fewer than two values exist. -/
def sampleVar (l : List ℚ) : Option ℚ :=
  if l.length < 2 then none
  else some ((l.map (fun x => (x - listMean l) ^ 2)).sum / ((l.length : ℚ) - 1))

/-- The per-image statistics of the inference loop: with no usable
diameters, `avg_d, std_dev, std_err = None, None, None` (outer `none`);
otherwise `avg = round(mean, 2)`,
`std_dev = round(np.std(·, ddof=1), 3)` and
`std_err = round(std_dev / sqrt(n), 3)`.  `sqrtQ` abstracts the real
square root, about which nothing is assumed: `std_dev` is `NaN` (inner
`none`) exactly when the sample variance is (`n = 1`), and `std_err`
inherits that `NaN`. -/
def aggStats (sqrtQ : ℚ → ℚ) (diams : List ℚ) :
    Option (ℚ × Option ℚ × Option ℚ) :=
  if diams.isEmpty then none
  else
    some (npRound 2 (listMean diams),
      (sampleVar diams).map (fun v2 => npRound 3 (sqrtQ v2)),
      ((sampleVar diams).map (fun v2 => npRound 3 (sqrtQ v2))).map
        (fun s => npRound 3 (s / sqrtQ (diams.length))))

/-- All three statistics fields are present and numeric (non-`NaN`). -/
def aggAllDefined : Option (ℚ × Option ℚ × Option ℚ) → Bool
  | some (_, some _, some _) => true
  | _ => false

/-! ## Claim C10 -/

/-- C10 (counterexample): with a single usable diameter (`n = 1`) the
three fields are present (not `None`), but `std_dev` — and hence
`std_err` — is `NaN` (`np.std(·, ddof=1)` of one value divides 0 by 0),
refuting "all three carry well-defined numeric values" for `n = 1`. -/
theorem agg_single_diameter_nan_cex :
    aggStats id [2] = some (2, none, none) ∧
    aggAllDefined (aggStats id [2]) = false := by
  have h : aggStats id [2] = some (2, none, none) := by
    norm_num [aggStats, sampleVar, listMean, npRound, roundHalfEven]
  exact ⟨h, by rw [h]; rfl⟩

/-- C10 (amended): the three fields `average`, `std_dev`, `std_err` are
all present or all absent, absent exactly when the usable-diameter list
is empty; with at least two diameters all three are well-defined
numbers; with exactly one diameter the average is a well-defined number
but `std_dev` and `std_err` are `NaN`. -/
theorem agg_stats_presence (sqrtQ : ℚ → ℚ) (diams : List ℚ) :
    (aggStats sqrtQ diams = none ↔ diams = []) ∧
    (2 ≤ diams.length → aggAllDefined (aggStats sqrtQ diams) = true) ∧
    (∀ d : ℚ, aggStats sqrtQ [d] =
        some (npRound 2 (listMean [d]), none, none)) := by
  refine ⟨?_, ?_, ?_⟩
  · cases diams with
    | nil => simp [aggStats]
    | cons a t => simp [aggStats]
  · intro h2
    have hne : diams.isEmpty = false := by
      cases diams
      · simp at h2
      · simp
    have hsv : ¬ diams.length < 2 := by omega
    simp [aggStats, sampleVar, hne, hsv, aggAllDefined]
  · intro d
    simp [aggStats, sampleVar]

/-- C10 witness: two diameters make every field a well-defined number. -/
theorem agg_stats_presence_witness :
    aggAllDefined (aggStats id [1, 2]) = true :=
  (agg_stats_presence id [1, 2]).2.1 (by norm_num)

end GrapeLength
